import Mathlib

/-!
Shallow embedding of the `TreeNode` data structure from
`src/Hierarchical/Tree/src/main.rs`, together with proofs of the
behavioural properties of its operations.

The Rust `f64` amounts are modelled as rational numbers `ℚ` (every
amount appearing in the program is an exact decimal, and the traversal
logic under verification is independent of the numeric representation).
A Rust `Vec<TreeNode>` is modelled as `List TreeNode`, with `push`
appending at the end.  `Option<&TreeNode>` becomes `Option TreeNode`
(values, since the tree is immutable once read).
-/

/-- The recursive node structure: `struct TreeNode \x7b name, amount, childrens \x7d`. -/
inductive TreeNode : Type where
  | mk (name : String) (amount : ℚ) (childrens : List TreeNode) : TreeNode

namespace TreeNode

/-- Field accessor for `name`. -/
def name : TreeNode → String
  | .mk n _ _ => n

/-- Field accessor for `amount`. -/
def amount : TreeNode → ℚ
  | .mk _ a _ => a

/-- Field accessor for `childrens`. -/
def childrens : TreeNode → List TreeNode
  | .mk _ _ cs => cs

/-- Embeds `TreeNode::new`: a fresh leaf with the given name and amount. -/
def new (name : String) (value : ℚ) : TreeNode :=
  .mk name value []

/-- Embeds `TreeNode::add_children`: `self.childrens.push(child)`. -/
def add_children (self : TreeNode) (child : TreeNode) : TreeNode :=
  .mk self.name self.amount (self.childrens ++ [child])

mutual

/-- Embeds `TreeNode::calculate_total`: start from `self.amount` and add each
child subtree total in child order. -/
def calculate_total : TreeNode → ℚ
  | .mk _ amount cs => totalLoop amount cs

/-- The `for child in &self.childrens` accumulation loop of `calculate_total`. -/
def totalLoop : ℚ → List TreeNode → ℚ
  | total, [] => total
  | total, child :: rest => totalLoop (total + child.calculate_total) rest

end

mutual

/-- Embeds `TreeNode::get_item`: if the node's own name matches, return it,
otherwise search the children in order. -/
def get_item : TreeNode → String → Option TreeNode
  | .mk n a cs, target =>
    if n = target then some (.mk n a cs)
    else findLoop cs target

/-- The `for child in &self.childrens` loop of `get_item`: return the first
recursive match. -/
def findLoop : List TreeNode → String → Option TreeNode
  | [], _ => none
  | child :: rest, target =>
    match child.get_item target with
    | some found => some found
    | none => findLoop rest target

end

mutual

/-- The nodes of a subtree in pre-order, depth-first, children in insertion
order: the node itself first, then the pre-order of each child subtree. -/
def preorder : TreeNode → List TreeNode
  | .mk n a cs => .mk n a cs :: preorderList cs

/-- Pre-order traversal of a forest, in order. -/
def preorderList : List TreeNode → List TreeNode
  | [] => []
  | c :: rest => c.preorder ++ preorderList rest

end

mutual

/-- Height of a tree: number of nodes on the longest root-to-leaf path, so a
leaf has height 1.  This is the recursion depth of `calculate_total` and
`get_item` started at the root. -/
def height : TreeNode → Nat
  | .mk _ _ cs => heightList cs + 1

/-- Maximum height over a forest (`0` for the empty forest). -/
def heightList : List TreeNode → Nat
  | [] => 0
  | c :: rest => max c.height (heightList rest)

end

mutual

/-- Fuel-bounded variant of `calculate_total`: each recursive call consumes one
unit of fuel (one stack frame), and `none` means the fuel bound was hit.  Used
to state that the recursion depth of `calculate_total` is the tree height. -/
def totalFuel : Nat → TreeNode → Option ℚ
  | 0, _ => none
  | fuel + 1, .mk _ amount cs => totalFuelLoop fuel amount cs
termination_by fuel t => (fuel, sizeOf t)

/-- Fuel-bounded variant of `totalLoop`. -/
def totalFuelLoop : Nat → ℚ → List TreeNode → Option ℚ
  | _, total, [] => some total
  | fuel, total, child :: rest =>
    match totalFuel fuel child with
    | none => none
    | some q => totalFuelLoop fuel (total + q) rest
termination_by fuel _ cs => (fuel, sizeOf cs)

end

mutual

/-- Fuel-bounded variant of `get_item`: the outer `none` means the fuel bound
was hit, `some r` means the search completed with result `r`. -/
def getItemFuel : Nat → TreeNode → String → Option (Option TreeNode)
  | 0, _, _ => none
  | fuel + 1, .mk n a cs, target =>
    if n = target then some (some (.mk n a cs))
    else getItemFuelLoop fuel cs target
termination_by fuel t _ => (fuel, sizeOf t)

/-- Fuel-bounded variant of `findLoop`. -/
def getItemFuelLoop : Nat → List TreeNode → String → Option (Option TreeNode)
  | _, [], _ => some none
  | fuel, child :: rest, target =>
    match getItemFuel fuel child target with
    | none => none
    | some (some found) => some (some found)
    | some none => getItemFuelLoop fuel rest target
termination_by fuel cs _ => (fuel, sizeOf cs)

end

end TreeNode

/-- The tree built by `main`: root "Financeiro" with the two category subtrees
attached in program order. -/
def exampleRoot : TreeNode :=
  let receitas := ((TreeNode.new "Receitas" 0).add_children
    (TreeNode.new "Salário" 5000)).add_children (TreeNode.new "Investimentos" 2000)
  let despesas := ((TreeNode.new "Despesas" 0).add_children
    (TreeNode.new "Aluguel" (-1200))).add_children (TreeNode.new "Supermercado" (-800))
  ((TreeNode.new "Financeiro" 0).add_children receitas).add_children despesas

namespace TreeNode

@[simp] theorem name_mk (n : String) (a : ℚ) (cs : List TreeNode) :
    (TreeNode.mk n a cs).name = n := rfl

@[simp] theorem amount_mk (n : String) (a : ℚ) (cs : List TreeNode) :
    (TreeNode.mk n a cs).amount = a := rfl

@[simp] theorem childrens_mk (n : String) (a : ℚ) (cs : List TreeNode) :
    (TreeNode.mk n a cs).childrens = cs := rfl

/-- The accumulation loop of `calculate_total` computes its starting value plus
the list sum of the child subtree totals, in order. -/
theorem totalLoop_eq_sum (cs : List TreeNode) (acc : ℚ) :
    totalLoop acc cs = acc + (cs.map calculate_total).sum := by
  induction cs generalizing acc with
  | nil => simp [totalLoop]
  | cons c rest ih =>
    rw [totalLoop, ih]
    simp
    ring

mutual

/-- The search of `get_item` returns exactly the first node of the pre-order
traversal whose name matches the target. -/
theorem get_item_eq_find : ∀ (t : TreeNode) (target : String),
    t.get_item target = t.preorder.find? fun nd => nd.name == target
  | .mk n a cs, target => by
    rw [get_item, preorder]
    by_cases h : n = target
    · rw [if_pos h, List.find?_cons_of_pos _ (by simp [h])]
    · rw [if_neg h, List.find?_cons_of_neg _ (by simp [h])]
      exact findLoop_eq_find cs target

/-- The child loop of `get_item` returns the first match of the pre-order
traversal of the forest. -/
theorem findLoop_eq_find : ∀ (cs : List TreeNode) (target : String),
    findLoop cs target = (preorderList cs).find? fun nd => nd.name == target
  | [], target => by rw [findLoop, preorderList, List.find?_nil]
  | c :: rest, target => by
    rw [preorderList, List.find?_append, ← get_item_eq_find c target,
      ← findLoop_eq_find rest target, findLoop]
    cases h : c.get_item target <;> simp [h, Option.or]

end

/-- Pre-order traversal of an appended forest splits into an append. -/
theorem preorderList_append (l₁ l₂ : List TreeNode) :
    preorderList (l₁ ++ l₂) = preorderList l₁ ++ preorderList l₂ := by
  induction l₁ with
  | nil => rw [List.nil_append, preorderList, List.nil_append]
  | cons c rest ih =>
    rw [List.cons_append, preorderList, preorderList, ih, List.append_assoc]

/-- A member of a forest is no taller than the forest's maximum height. -/
theorem height_le_heightList {c : TreeNode} {cs : List TreeNode} (h : c ∈ cs) :
    c.height ≤ heightList cs := by
  induction cs with
  | nil => cases h
  | cons d rest ih =>
    rw [heightList]
    rcases List.mem_cons.mp h with rfl | h₂
    · exact le_max_left _ _
    · exact le_trans (ih h₂) (le_max_right _ _)

mutual

/-- With fuel at least the tree height, the fuel-bounded total completes and
agrees with `calculate_total`. -/
theorem totalFuel_eq : ∀ (fuel : Nat) (t : TreeNode), t.height ≤ fuel →
    totalFuel fuel t = some t.calculate_total
  | 0, .mk n a cs, h => by rw [height] at h; omega
  | fuel + 1, .mk n a cs, h => by
    rw [totalFuel, calculate_total]
    exact totalFuelLoop_eq fuel a cs fun c hc =>
      le_trans (height_le_heightList hc) (by rw [height] at h; omega)

/-- With fuel at least every height in the forest, the fuel-bounded loop
completes and agrees with `totalLoop`. -/
theorem totalFuelLoop_eq : ∀ (fuel : Nat) (acc : ℚ) (cs : List TreeNode),
    (∀ c ∈ cs, c.height ≤ fuel) →
    totalFuelLoop fuel acc cs = some (totalLoop acc cs)
  | _, acc, [], _ => by rw [totalFuelLoop, totalLoop]
  | fuel, acc, c :: rest, h => by
    rw [totalFuelLoop, totalLoop, totalFuel_eq fuel c (h c (List.mem_cons_self c rest))]
    exact totalFuelLoop_eq fuel (acc + c.calculate_total) rest fun d hd =>
      h d (List.mem_cons_of_mem c hd)

end

mutual

/-- With fuel at least the tree height, the fuel-bounded search completes and
agrees with `get_item`. -/
theorem getItemFuel_eq : ∀ (fuel : Nat) (t : TreeNode) (target : String),
    t.height ≤ fuel → getItemFuel fuel t target = some (t.get_item target)
  | 0, .mk n a cs, _, h => by rw [height] at h; omega
  | fuel + 1, .mk n a cs, target, h => by
    rw [getItemFuel, get_item]
    by_cases hn : n = target
    · rw [if_pos hn, if_pos hn]
    · rw [if_neg hn, if_neg hn]
      exact getItemFuelLoop_eq fuel cs target fun c hc =>
        le_trans (height_le_heightList hc) (by rw [height] at h; omega)

/-- With fuel at least every height in the forest, the fuel-bounded child loop
completes and agrees with `findLoop`. -/
theorem getItemFuelLoop_eq : ∀ (fuel : Nat) (cs : List TreeNode) (target : String),
    (∀ c ∈ cs, c.height ≤ fuel) →
    getItemFuelLoop fuel cs target = some (findLoop cs target)
  | _, [], _, _ => by rw [getItemFuelLoop, findLoop]
  | fuel, c :: rest, target, h => by
    rw [getItemFuelLoop, findLoop, getItemFuel_eq fuel c target (h c (List.mem_cons_self c rest))]
    cases hc : c.get_item target with
    | none =>
      simp only
      exact getItemFuelLoop_eq fuel rest target fun d hd => h d (List.mem_cons_of_mem c hd)
    | some found => simp only

end

end TreeNode

/-- C1: for every node, `calculate_total` returns the node's own amount plus
the sum of the totals of its children, taken in child (insertion) order. -/
theorem spec_C1 (t : TreeNode) :
    t.calculate_total = t.amount + (t.childrens.map TreeNode.calculate_total).sum := by
  cases t with
  | mk n a cs =>
    rw [TreeNode.calculate_total, TreeNode.totalLoop_eq_sum, TreeNode.amount_mk,
      TreeNode.childrens_mk]

/-- C2: `get_item` is a pre-order depth-first search: it returns exactly the
first node, in pre-order (the node itself first, then each child subtree in
child order), whose name equals the target — so a node matching at its own
name is returned immediately, and when several nodes share the target name the
pre-order-first one wins. -/
theorem spec_C2 (t : TreeNode) (target : String) :
    t.get_item target = t.preorder.find? fun nd => nd.name == target :=
  TreeNode.get_item_eq_find t target

/-- C3: `get_item` returns the absence value `none` exactly when the target
name occurs at no node of the searched subtree; absence is the only
failure-shaped outcome (the return type is `Option`, no other fault exists). -/
theorem spec_C3 (t : TreeNode) (target : String) :
    t.get_item target = none ↔ ∀ nd ∈ t.preorder, nd.name ≠ target := by
  rw [TreeNode.get_item_eq_find, List.find?_eq_none]
  simp

/-- C4: `new` builds a leaf: for every name (the empty string included) and
every amount, the result carries exactly that name and amount and has no
children; construction is total and performs no validation. -/
theorem spec_C4 (n : String) (a : ℚ) :
    (TreeNode.new n a).name = n ∧ (TreeNode.new n a).amount = a ∧
    (TreeNode.new n a).childrens = [] :=
  ⟨rfl, rfl, rfl⟩

/-- C5: `add_children` appends the child at the end of the parent's child
sequence and does nothing else: name and amount are unchanged, the existing
children are kept in order, the sequence grows by exactly one, and the last
element is the given child. -/
theorem spec_C5 (p c : TreeNode) :
    (p.add_children c).name = p.name ∧ (p.add_children c).amount = p.amount ∧
    (p.add_children c).childrens = p.childrens ++ [c] ∧
    (p.add_children c).childrens.length = p.childrens.length + 1 := by
  refine ⟨rfl, rfl, rfl, ?_⟩
  rw [TreeNode.add_children, TreeNode.childrens_mk, List.length_append,
    List.length_singleton]

/-- C6: on the example tree built by `main`, the aggregate total is 5000. -/
theorem spec_C6 : exampleRoot.calculate_total = 5000 := by
  norm_num [exampleRoot, TreeNode.new, TreeNode.add_children, TreeNode.calculate_total,
    TreeNode.totalLoop]

/-- C7: on the example tree, searching for "Aluguel" returns a node whose
amount is -1200 and whose child sequence is empty. -/
theorem spec_C7 :
    ∃ nd, exampleRoot.get_item "Aluguel" = some nd ∧
      nd.amount = -1200 ∧ nd.childrens = [] := by
  refine ⟨TreeNode.mk "Aluguel" (-1200) [], ?_, rfl, rfl⟩
  simp [exampleRoot, TreeNode.new, TreeNode.add_children, TreeNode.get_item,
    TreeNode.findLoop]

/-- C8 as stated is false: attaching a child whose name the parent already
bears makes `get_item` return the parent (the pre-order-first match), not the
child, and their amounts differ.  Concretely, parent "A" with amount 0 and
child "A" with amount 1: the search result has amount 0, not the child's 1. -/
theorem spec_C8_counterexample :
    (((TreeNode.new "A" 0).add_children (TreeNode.new "A" 1)).get_item "A").map
      TreeNode.amount = some 0 ∧
    (TreeNode.new "A" 1).amount = 1 ∧ (0 : ℚ) ≠ 1 := by
  refine ⟨?_, rfl, by norm_num⟩
  simp [TreeNode.new, TreeNode.add_children, TreeNode.get_item]

/-- C8 (amended): if the child's name does not occur anywhere in the parent's
tree before the attach, then after `add_children` a `get_item` on the parent
for exactly the child's name returns that child. -/
theorem spec_C8 (p c : TreeNode)
    (h : ∀ nd ∈ p.preorder, nd.name ≠ c.name) :
    (p.add_children c).get_item c.name = some c := by
  cases p with
  | mk n a cs =>
    have hn : n ≠ c.name := by
      have := h (.mk n a cs) (by rw [TreeNode.preorder]; exact List.mem_cons_self _ _)
      simpa using this
    rw [TreeNode.add_children, TreeNode.name_mk, TreeNode.amount_mk, TreeNode.childrens_mk,
      TreeNode.get_item, if_neg hn, TreeNode.findLoop_eq_find, TreeNode.preorderList_append]
    rw [List.find?_append]
    have h₁ : ((TreeNode.preorderList cs).find? fun nd => nd.name == c.name) = none := by
      rw [List.find?_eq_none]
      intro x hx
      simp only [beq_iff_eq]
      exact h x (by rw [TreeNode.preorder]; exact List.mem_cons_of_mem _ hx)
    rw [h₁]
    cases c with
    | mk cn ca ccs =>
      rw [TreeNode.preorderList, TreeNode.preorderList, List.append_nil, TreeNode.preorder,
        List.find?_cons_of_pos _ (by simp)]
      rfl

/-- C8 witness: a fresh parent "Parent" and child "Child" with distinct names;
after the attach, searching for "Child" from the parent returns the child. -/
theorem spec_C8_witness :
    (∀ nd ∈ (TreeNode.new "Parent" 0).preorder, nd.name ≠ (TreeNode.new "Child" 5).name) ∧
    ((TreeNode.new "Parent" 0).add_children (TreeNode.new "Child" 5)).get_item
      (TreeNode.new "Child" 5).name = some (TreeNode.new "Child" 5) :=
  ⟨by simp [TreeNode.new, TreeNode.preorder, TreeNode.preorderList],
   spec_C8 (TreeNode.new "Parent" 0) (TreeNode.new "Child" 5)
     (by simp [TreeNode.new, TreeNode.preorder, TreeNode.preorderList])⟩

/-- C9: both traversals are total on every finite tree, with recursion depth
equal to the tree height: whenever the fuel (stack budget) is at least the
height, the fuel-bounded variants complete and return exactly
`calculate_total` and `get_item`. -/
theorem spec_C9 (t : TreeNode) (fuel : Nat) (target : String)
    (h : t.height ≤ fuel) :
    TreeNode.totalFuel fuel t = some t.calculate_total ∧
    TreeNode.getItemFuel fuel t target = some (t.get_item target) :=
  ⟨TreeNode.totalFuel_eq fuel t h, TreeNode.getItemFuel_eq fuel t target h⟩

/-- C9 witness: the example tree has height 3, and with fuel 3 both bounded
traversals complete. -/
theorem spec_C9_witness :
    exampleRoot.height ≤ 3 ∧
    (TreeNode.totalFuel 3 exampleRoot = some exampleRoot.calculate_total ∧
     TreeNode.getItemFuel 3 exampleRoot "Aluguel" = some (exampleRoot.get_item "Aluguel")) :=
  ⟨by norm_num [exampleRoot, TreeNode.new, TreeNode.add_children, TreeNode.height,
      TreeNode.heightList],
   spec_C9 exampleRoot 3 "Aluguel"
     (by norm_num [exampleRoot, TreeNode.new, TreeNode.add_children, TreeNode.height,
        TreeNode.heightList])⟩

/-- C10: whenever `get_item` returns a node, that node's name equals the
target and the node is one of the nodes of the searched subtree (it occurs in
the subtree's pre-order traversal). -/
theorem spec_C10 (t : TreeNode) (target : String) (r : TreeNode)
    (h : t.get_item target = some r) :
    r.name = target ∧ r ∈ t.preorder := by
  rw [TreeNode.get_item_eq_find] at h
  exact ⟨by simpa using List.find?_some h, List.mem_of_find?_eq_some h⟩

/-- C10 witness: on the example tree, the "Aluguel" search result indeed bears
that name and occurs in the tree. -/
theorem spec_C10_witness :
    (TreeNode.mk "Aluguel" (-1200) []).name = "Aluguel" ∧
    TreeNode.mk "Aluguel" (-1200) [] ∈ exampleRoot.preorder :=
  spec_C10 exampleRoot "Aluguel" (TreeNode.mk "Aluguel" (-1200) [])
    (by simp [exampleRoot, TreeNode.new, TreeNode.add_children, TreeNode.get_item,
      TreeNode.findLoop])
